import Mathlib

/-!
Verification of the `git-contributors` tool (`authors.go`).

The Go program is shallowly embedded below: each Go function is rendered as
an executable Lean definition over lists and strings.  Go maps are rendered
either as association lists (when the program iterates over them) or as
update functions `String → Option _` / `String → Bool` (when the program
only reads and writes single keys); both renderings preserve the map's
read/write semantics.  Machine integers that only count upwards are `Nat`.
-/

namespace GitContrib

/-- The `author` struct of `authors.go`.  `geekrank` is set from
`int(math.Log2(float64(commits)))`; we store it as `Option Int`, where
`none` stands for the Go conversion `int(-Inf)` (the value `math.Log2(0)`
produces), which the Go specification leaves implementation-dependent.
The Go zero value of the field is `some 0`. -/
structure Author where
  name : String
  nickname : String
  emails : List String
  commits : Nat
  geekrank : Option Int
deriving Repr, DecidableEq

/-- Go zero value `var author author`. -/
def zeroAuthor : Author := ⟨"", "", [], 0, some 0⟩

/-- One line of `git log --format=%H %ae %an`, already split into its three
fields: commit hash, author email, author name (the name may contain
spaces, it is the remainder of the line). -/
structure Record where
  hash : String
  email : String
  name : String
deriving Repr, DecidableEq

/-! ### strings.Contains -/

/-- Does `pat` occur at the start of the second list? -/
def startsWithL : List Char → List Char → Bool
  | [], _ => true
  | _ :: _, [] => false
  | p :: ps, c :: cs => p == c && startsWithL ps cs

/-- Does `pat` occur somewhere in the list? -/
def containsL (pat : List Char) : List Char → Bool
  | [] => startsWithL pat []
  | c :: rest => startsWithL pat (c :: rest) || containsL pat rest

/-- Model of Go `strings.Contains s pat` (at rune granularity; in valid
UTF-8 a pattern that is itself a valid string matches at byte level iff it
matches at rune level). -/
def goContains (s pat : String) : Bool := containsL pat.data s.data

/-! ### The roster parser (`getAuthors`) -/

/-- Model of Go `strings.Fields`: cut the character stream at whitespace
runs, emitting the non-empty maximal runs of non-whitespace characters in
order (`acc` holds the current run, reversed). -/
def fieldsAux : List Char → List Char → List String
  | [], acc => if acc.isEmpty then [] else [⟨acc.reverse⟩]
  | c :: cs, acc =>
    if c.isWhitespace then
      if acc.isEmpty then fieldsAux cs [] else ⟨acc.reverse⟩ :: fieldsAux cs []
    else fieldsAux cs (c :: acc)

/-- Go `strings.Fields(s)`. -/
def fieldsOf (s : String) : List String := fieldsAux s.data []

/-- Model of Go `strings.Split(s, "\n")`: cut at every newline; an empty
input yields one empty piece, like the Go function. -/
def splitLinesAux : List Char → List Char → List String
  | [], acc => [⟨acc.reverse⟩]
  | c :: cs, acc =>
    if c = '\n' then ⟨acc.reverse⟩ :: splitLinesAux cs [] else splitLinesAux cs (c :: acc)

/-- The lines of the roster text. -/
def linesOf (text : String) : List String := splitLinesAux text.data []

/-- The part of `xs` strictly before the last occurrence of `c`
(meaningful when `c ∈ xs`). -/
def beforeLast (c : Char) (xs : List Char) : List Char :=
  ((xs.reverse.dropWhile (fun x => x != c)).drop 1).reverse

/-- Model of `regexp.FindStringSubmatch` for the patterns
`\(([^\s]*)\)` and `<([^\s]*)>` of `authors.go`, applied to a single
whitespace-free field (`strings.Fields` guarantees fields contain no
whitespace, so `[^\s]*` matches any run of characters here).  Go regexps
use leftmost-first matching with a greedy star: the match starts at the
first `o` that has some `c` after it, and the capture extends to the last
`c` of the field. -/
def findDelimAux (o c : Char) : List Char → Option (List Char)
  | [] => none
  | x :: xs => if x == o && xs.contains c then some (beforeLast c xs) else findDelimAux o c xs

/-- Capture of the first `o…c` pattern of a field, as a string. -/
def findDelim (o c : Char) (f : String) : Option String :=
  (findDelimAux o c f.data).map fun cs => ⟨cs⟩

/-- One iteration of the field loop of `getAuthors`: nickname pattern
first, then email pattern, else the field accumulates into the name. -/
def parseField (a : Author) (f : String) : Author :=
  match findDelim '(' ')' f with
  | some nick => { a with nickname := nick }
  | none =>
    match findDelim '<' '>' f with
    | some em => { a with emails := a.emails ++ [em] }
    | none => { a with name := if a.name = "" then f else a.name ++ " " ++ f }

/-- The field loop of `getAuthors` over one roster line. -/
def parseLine (fs : List String) : Author := fs.foldl parseField zeroAuthor

/-- `getAuthors`: parse the roster text, skipping empty lines and lines
whose first byte is `#` (`len(line) == 0 || line[0] == '#'`). -/
def getAuthors (text : String) : List Author :=
  (linesOf text).foldl
    (fun acc line =>
      match line.data with
      | [] => acc
      | c :: _ => if c = '#' then acc else acc ++ [parseLine (fieldsOf line)])
    []

/-! ### The history reader (`allAuthors`) -/

/-- Assignment `m[k] = v` on a Go `map[string]string` rendered as an
association list: overwrite in place, or append a fresh key. -/
def setAssoc : List (String × String) → String → String → List (String × String)
  | [], k, v => [(k, v)]
  | (q, w) :: rest, k, v => if q == k then (k, v) :: rest else (q, w) :: setAssoc rest k v

/-- One history record of the `allAuthors` loop: skip excluded commits;
`if names[email] == ""` (which also holds when the key is absent, since a
Go map read yields the zero value) assign `names[email] = name`. -/
def allAuthorsStep (exclude : List String) (m : List (String × String)) (r : Record) :
    List (String × String) :=
  if exclude.contains r.hash then m
  else if (List.lookup r.email m).getD "" = "" then setAssoc m r.email r.name
  else m

/-- `allAuthors`: the email → name map discovered from the identity
stream, excluded commits skipped. -/
def allAuthors (exclude : List String) (history : List Record) : List (String × String) :=
  history.foldl (allAuthorsStep exclude) []

/-! ### The identity reconciler (lines 83–113 of `main`) -/

/-- `stringSet.add` on the `listed` set, rendered as a membership
function. -/
def addListed (s : String → Bool) (e : String) : String → Bool :=
  fun x => if x = e then true else s x

/-- Assignment on the `names` map (name → index). -/
def setName (m : String → Option Nat) (k : String) (i : Nat) : String → Option Nat :=
  fun x => if x = k then some i else m x

/-- `listed` after the initial loop over the roster: every known email. -/
def initListed (authors : List Author) : String → Bool :=
  authors.foldl (fun s a => a.emails.foldl addListed s) (fun _ => false)

/-- The `names[a.name] = i` loop (`for i, a := range authors`), carrying
the running index; a later entry overwrites an earlier one of the same
name. -/
def initNamesFrom : List Author → Nat → (String → Option Nat) → (String → Option Nat)
  | [], _, m => m
  | a :: rest, i, m => initNamesFrom rest (i + 1) (setName m a.name i)

/-- The `names` map after the initial loop over the roster. -/
def initNames (authors : List Author) : String → Option Nat :=
  initNamesFrom authors 0 (fun _ => none)

/-- `authors[i].emails = append(authors[i].emails, e)`. -/
def appendEmailAt : List Author → Nat → String → List Author
  | [], _, _ => []
  | a :: rest, 0, e => { a with emails := a.emails ++ [e] } :: rest
  | a :: rest, i + 1, e => a :: appendEmailAt rest i e

/-- `author{name: name, emails: []string{email}}`. -/
def newAuthor (name email : String) : Author :=
  { zeroAuthor with name := name, emails := [email] }

/-- The reconciliation state: the roster plus the `listed` and `names`
indices of `main`. -/
structure RecState where
  authors : List Author
  listed : String → Bool
  names : String → Option Nat

/-- The append-a-new-contributor branch of the reconciliation loop. -/
def createAuthor (st : RecState) (email name : String) : RecState :=
  { authors := st.authors ++ [newAuthor name email],
    listed := addListed st.listed email,
    names := setName st.names name st.authors.length }

/-- One iteration of the `for email, name := range all` loop: skip listed
emails; on a non-empty name match append the email to the matched
contributor; otherwise create a new contributor. -/
def recStep (st : RecState) (p : String × String) : RecState :=
  if st.listed p.1 then st
  else
    match st.names p.2 with
    | some i =>
      if p.2 = "" then createAuthor st p.1 p.2
      else
        { authors := appendEmailAt st.authors i p.1,
          listed := addListed st.listed p.1,
          names := st.names }
    | none => createAuthor st p.1 p.2

/-- The state entering the reconciliation loop. -/
def initState (authors : List Author) : RecState :=
  ⟨authors, initListed authors, initNames authors⟩

/-- The whole reconciliation step of `main`: build `listed` and `names`
from the roster, then fold the discovered (email, name) pairs. -/
def reconcile (authors : List Author) (d : List (String × String)) : List Author :=
  (d.foldl recStep (initState authors)).authors

/-! ### The contribution counter (`getContributions`) -/

/-- The raw per-commit email stream (`git log --pretty=format:%ae`): one
email per commit of the history, with no exclusion filtering. -/
def emailStream (history : List Record) : List String := history.map Record.email

/-- The `emailIdx[email] = i` loop of `getContributions`, carrying the
running index; a later author overwrites an earlier one. -/
def buildIdxFrom : List Author → Nat → (String → Option Nat) → (String → Option Nat)
  | [], _, m => m
  | a :: rest, i, m => buildIdxFrom rest (i + 1) (a.emails.foldl (fun m e => setName m e i) m)

/-- The email → author-index map of `getContributions`. -/
def buildEmailIdx (authors : List Author) : String → Option Nat :=
  buildIdxFrom authors 0 (fun _ => none)

/-- `authors[i].commits++`. -/
def incCommitsAt : List Author → Nat → List Author
  | [], _ => []
  | a :: rest, 0 => { a with commits := a.commits + 1 } :: rest
  | a :: rest, i + 1 => a :: incCommitsAt rest i

/-- One line of the counting loop: increment the matched author, ignore
unknown emails. -/
def countStep (idx : String → Option Nat) (as : List Author) (line : String) : List Author :=
  match idx line with
  | some i => incCommitsAt as i
  | none => as

/-- `int(math.Log2(float64(commits)))`.  For `commits ≥ 1` the float
computation returns exactly `floor (log2 commits)` at every magnitude a
commit count can take (below `2^49` the nearest float to `log2 n` floors
to the same integer), rendered as `Nat.log2`.  For `commits = 0`,
`math.Log2` returns `-Inf` and the Go conversion to `int` is
implementation-dependent; that absent defined value is rendered `none`. -/
def geekrankOf (commits : Nat) : Option Int :=
  if commits = 0 then none else some (Nat.log2 commits : Int)

/-- `getContributions`: count the email stream into the authors, then set
every author's geekrank from its commit count. -/
def getContributions (authors : List Author) (stream : List String) : List Author :=
  ((stream.foldl (countStep (buildEmailIdx authors)) authors).map
    fun a => { a with geekrank := geekrankOf a.commits })

/-- The pipeline of `main` up to and including counting: reconcile the
roster against the identity stream (exclusions applied), then count the
raw email stream (exclusions not applied: `getContributions` invokes
`git log --pretty=format:%ae` with no filtering). -/
def countedAuthors (roster : List Author) (exclude : List String) (history : List Record) :
    List Author :=
  getContributions (reconcile roster (allAuthors exclude history)) (emailStream history)

/-! ### The filter stage (lines 119–124 of `main`) -/

/-- The removal condition of the filter loop:
`strings.Contains(authors[i].name, *excludePattern) || authors[i].commits < *minContributions`. -/
def removePred (minC : Nat) (pat : String) (a : Author) : Bool :=
  goContains a.name pat || decide (a.commits < minC)

/-- The in-place remove-while-scanning loop: on removal the element is
spliced out and the index stays put, otherwise the index advances. -/
def filterLoop (minC : Nat) (pat : String) (l : List Author) (i : Nat) : List Author :=
  if h : i < l.length then
    if removePred minC pat (l.get ⟨i, h⟩) then
      filterLoop minC pat (l.eraseIdx i) i
    else
      filterLoop minC pat l (i + 1)
  else l
termination_by l.length - i
decreasing_by
  · simp [List.length_eraseIdx, h]; omega
  · omega

/-- Modelled from the spec: the keep-predicate of the pure filter the
spec recommends (`commits >= min` and the name does not contain the
exclusion pattern). -/
def keepPred (minC : Nat) (pat : String) (a : Author) : Bool :=
  decide (minC ≤ a.commits) && !goContains a.name pat

/-- Modelled from the spec: the pure filter producing a new sequence. -/
def pureFilter (minC : Nat) (pat : String) (l : List Author) : List Author :=
  l.filter (keepPred minC pat)

/-! ### The name sort (`byName`) -/

/-- `strings.ToLower(a.name)` (ASCII case folding suffices here). -/
def lowerName (a : Author) : String := a.name.toLower

/-- The order realized by `sort.Sort(byName(...))`: `byName.Less` compares
lowercased names. -/
def nameLe (a b : Author) : Prop := lowerName a ≤ lowerName b

instance : DecidableRel nameLe := fun a b => inferInstanceAs (Decidable (lowerName a ≤ lowerName b))

instance : IsTotal Author nameLe := ⟨fun a b => le_total (lowerName a) (lowerName b)⟩

instance : IsTrans Author nameLe := ⟨fun _ _ _ h h₂ => le_trans h h₂⟩

/-- `sort.Sort(byName(authors))`: Go's sort guarantees a permutation that
is non-decreasing under `Less`; realized here by insertion sort under the
same order. -/
def sortByName (l : List Author) : List Author := List.insertionSort nameLe l

/-- All emails of a roster, in roster order. -/
def allEmails (l : List Author) : List String := (l.map Author.emails).flatten

/-! ### Specification-side definitions used to state the claims -/

/-- The names of the non-excluded history records bearing email `e`, in
history order. -/
def namesFor (exclude : List String) (history : List Record) (e : String) : List String :=
  (history.filter (fun r => !exclude.contains r.hash && r.email == e)).map Record.name

/-- The first non-empty string of a list, or `""` if there is none. -/
def headNonEmpty (l : List String) : String := (l.filter (fun s => s != "")).headD ""

/-- The nickname capture of a field, when the nickname pattern matches. -/
def nickOf (f : String) : Option String := findDelim '(' ')' f

/-- The email capture of a field, when the email pattern matches and the
nickname pattern does not (classification order of `getAuthors`). -/
def emailTokenOf (f : String) : Option String :=
  if (findDelim '(' ')' f).isSome then none else findDelim '<' '>' f

/-- A field neither pattern matches: it accumulates into the name. -/
def isPlainField (f : String) : Bool :=
  (findDelim '(' ')' f).isNone && (findDelim '<' '>' f).isNone

/-- Join strings with single spaces, in order. -/
def joinSp : List String → String
  | [] => ""
  | [f] => f
  | f :: g :: fs => f ++ " " ++ joinSp (g :: fs)

/-- The name accumulator of the field loop, run from a seed name. -/
def joinFrom (n : String) (ps : List String) : String :=
  ps.foldl (fun n f => if n = "" then f else n ++ " " ++ f) n

/-- Modelled from the spec's words for the per-line contract of the
Roster Parser: position-independent field classification, nickname from
the last nickname field, emails in field order, name joined by single
spaces in field order. -/
def parseLineSpec (fs : List String) : Author :=
  { name := joinSp (fs.filter isPlainField),
    nickname := ((fs.filterMap nickOf).getLast?).getD "",
    emails := fs.filterMap emailTokenOf,
    commits := 0,
    geekrank := some 0 }

/-- Invariant of the reconciliation loop: the `listed` set holds exactly
the emails present in the working roster. -/
def ListedOk (st : RecState) : Prop :=
  ∀ e, st.listed e = true ↔ e ∈ allEmails st.authors

/-- Invariant of the reconciliation loop: the `names` index maps a name to
a valid position holding that name. -/
def NamesOk (st : RecState) : Prop :=
  ∀ n i, st.names n = some i →
    ∃ h : i < st.authors.length, (st.authors.get ⟨i, h⟩).name = n

/-- State of the reconciliation loop before the pair `(e2, n)` is
processed: `e2` is unknown, and the `names` index still maps `n` to the
fixed roster position `i0`. -/
def PreInv (e2 n : String) (i0 : Nat) (st : RecState) : Prop :=
  st.listed e2 = false ∧ e2 ∉ allEmails st.authors ∧ st.names n = some i0

/-- State of the reconciliation loop after the pair `(e2, n)` has been
merged: `e2` sits in the contributor at position `i0` and nowhere else. -/
def PostInv (e2 : String) (i0 : Nat) (st : RecState) : Prop :=
  (∃ hj : i0 < st.authors.length, e2 ∈ (st.authors.get ⟨i0, hj⟩).emails) ∧
  ∀ j, ∀ hj : j < st.authors.length, j ≠ i0 → e2 ∉ (st.authors.get ⟨j, hj⟩).emails

/-! ## Basic lemmas about the embedded operations -/

lemma allEmails_cons (a : Author) (l : List Author) :
    allEmails (a :: l) = a.emails ++ allEmails l := rfl

lemma allEmails_append (l₁ l₂ : List Author) :
    allEmails (l₁ ++ l₂) = allEmails l₁ ++ allEmails l₂ := by
  simp [allEmails]

lemma mem_allEmails {x : String} {l : List Author} :
    x ∈ allEmails l ↔ ∃ a ∈ l, x ∈ a.emails := by
  simp [allEmails]

lemma length_appendEmailAt (l : List Author) (i : Nat) (e : String) :
    (appendEmailAt l i e).length = l.length := by
  induction l generalizing i with
  | nil => rfl
  | cons a rest ih => cases i <;> simp [appendEmailAt, ih]

lemma appendEmailAt_of_le (l : List Author) (i : Nat) (e : String) (h : l.length ≤ i) :
    appendEmailAt l i e = l := by
  induction l generalizing i with
  | nil => rfl
  | cons a rest ih =>
    cases i with
    | zero => simp at h
    | succ n =>
      simp only [appendEmailAt]
      rw [ih n (by simpa using h)]

lemma get_appendEmailAt (l : List Author) (i : Nat) (e : String) (j : Nat)
    (hj : j < l.length) (hj2 : j < (appendEmailAt l i e).length) :
    (appendEmailAt l i e).get ⟨j, hj2⟩ =
      if j = i then
        { l.get ⟨j, hj⟩ with emails := (l.get ⟨j, hj⟩).emails ++ [e] }
      else l.get ⟨j, hj⟩ := by
  induction l generalizing i j with
  | nil => simp at hj
  | cons a rest ih =>
    cases i with
    | zero =>
      cases j with
      | zero => simp [appendEmailAt]
      | succ m => simp [appendEmailAt]
    | succ n =>
      cases j with
      | zero => simp [appendEmailAt]
      | succ m =>
        have hm : m < rest.length := by simpa using hj
        have hm2 : m < (appendEmailAt rest n e).length := by
          simpa [length_appendEmailAt] using hm
        have := ih n m hm hm2
        simpa [appendEmailAt, Nat.succ_inj] using this

lemma mem_allEmails_appendEmailAt {x : String} (l : List Author) (i : Nat) (e : String) :
    x ∈ allEmails (appendEmailAt l i e) → x ∈ allEmails l ∨ x = e := by
  induction l generalizing i with
  | nil =>
    intro h
    rw [show appendEmailAt [] i e = [] from rfl] at h
    simp [allEmails] at h
  | cons a rest ih =>
    cases i with
    | zero =>
      intro h
      rcases (by simpa [appendEmailAt, allEmails_cons] using h :
          x ∈ a.emails ∨ x = e ∨ x ∈ allEmails rest) with h1 | h1 | h2
      · exact Or.inl (by simp [allEmails_cons, h1])
      · exact Or.inr h1
      · exact Or.inl (by simp [allEmails_cons, h2])
    | succ n =>
      intro h
      rcases (by simpa [appendEmailAt, allEmails_cons] using h :
          x ∈ a.emails ∨ x ∈ allEmails (appendEmailAt rest n e)) with h1 | h2
      · exact Or.inl (by simp [allEmails_cons, h1])
      · rcases ih n h2 with h3 | h3
        · exact Or.inl (by simp [allEmails_cons, h3])
        · exact Or.inr h3

lemma allEmails_appendEmailAt_perm (l : List Author) (i : Nat) (e : String)
    (h : i < l.length) :
    (allEmails (appendEmailAt l i e)).Perm (e :: allEmails l) := by
  induction l generalizing i with
  | nil => simp at h
  | cons a rest ih =>
    cases i with
    | zero =>
      have : allEmails (appendEmailAt (a :: rest) 0 e) =
          a.emails ++ (e :: allEmails rest) := by
        simp [appendEmailAt, allEmails_cons]
      rw [this, allEmails_cons]
      exact List.perm_middle
    | succ n =>
      have hn : n < rest.length := by simpa using h
      have : allEmails (appendEmailAt (a :: rest) (n + 1) e) =
          a.emails ++ allEmails (appendEmailAt rest n e) := by
        simp [appendEmailAt, allEmails_cons]
      rw [this, allEmails_cons]
      exact ((ih n hn).append_left a.emails).trans List.perm_middle

lemma length_incCommitsAt (l : List Author) (i : Nat) :
    (incCommitsAt l i).length = l.length := by
  induction l generalizing i with
  | nil => rfl
  | cons a rest ih => cases i <;> simp [incCommitsAt, ih]

lemma get_incCommitsAt (l : List Author) (i : Nat) (j : Nat)
    (hj : j < l.length) (hj2 : j < (incCommitsAt l i).length) :
    (incCommitsAt l i).get ⟨j, hj2⟩ =
      if j = i then
        { l.get ⟨j, hj⟩ with commits := (l.get ⟨j, hj⟩).commits + 1 }
      else l.get ⟨j, hj⟩ := by
  induction l generalizing i j with
  | nil => simp at hj
  | cons a rest ih =>
    cases i with
    | zero =>
      cases j with
      | zero => simp [incCommitsAt]
      | succ m => simp [incCommitsAt]
    | succ n =>
      cases j with
      | zero => simp [incCommitsAt]
      | succ m =>
        have hm : m < rest.length := by simpa using hj
        have hm2 : m < (incCommitsAt rest n).length := by
          simpa [length_incCommitsAt] using hm
        have := ih n m hm hm2
        simpa [incCommitsAt, Nat.succ_inj] using this

/-! ## Characterizations of the map-building loops -/

lemma foldl_addListed (emails : List String) (s : String → Bool) (x : String) :
    (emails.foldl addListed s) x = (s x || emails.contains x) := by
  induction emails generalizing s with
  | nil => simp
  | cons e es ih =>
    rw [List.foldl_cons, ih]
    by_cases hx : x = e <;> simp [addListed, hx, eq_comm]

lemma initListed_spec (authors : List Author) (x : String) :
    initListed authors x = true ↔ x ∈ allEmails authors := by
  have key : ∀ (l : List Author) (s : String → Bool),
      (l.foldl (fun s a => a.emails.foldl addListed s) s) x
        = (s x || (allEmails l).contains x) := by
    intro l
    induction l with
    | nil => intro s; simp [allEmails]
    | cons a rest ih =>
      intro s
      rw [List.foldl_cons, ih, foldl_addListed, allEmails_cons]
      simp [Bool.or_assoc]
  rw [initListed, key]
  simp

lemma initNamesFrom_some (l : List Author) :
    ∀ (k : Nat) (m : String → Option Nat) (n : String) (i : Nat),
      initNamesFrom l k m n = some i →
      m n = some i ∨ ∃ j, ∃ hj : j < l.length, i = k + j ∧ (l.get ⟨j, hj⟩).name = n := by
  induction l with
  | nil => intro k m n i h; exact Or.inl h
  | cons a rest ih =>
    intro k m n i h
    rcases ih (k + 1) (setName m a.name k) n i h with h1 | ⟨j, hj, rfl, hname⟩
    · by_cases hn : n = a.name
      · right
        refine ⟨0, by simp, ?_, by simp [hn]⟩
        have hk : some k = some i := by simpa [setName, hn] using h1
        have hk2 : k = i := by injection hk
        omega
      · exact Or.inl (by simpa [setName, hn] using h1)
    · right
      exact ⟨j + 1, by simpa using Nat.succ_lt_succ hj, by omega, by simpa using hname⟩

lemma initNamesFrom_isSome (l : List Author) :
    ∀ (k : Nat) (m : String → Option Nat) (n : String),
      (∃ i, m n = some i) → ∃ i, initNamesFrom l k m n = some i := by
  induction l with
  | nil => intro k m n h; exact h
  | cons a rest ih =>
    intro k m n h
    refine ih (k + 1) (setName m a.name k) n ?_
    by_cases hn : n = a.name
    · exact ⟨k, by simp [setName, hn]⟩
    · simpa [setName, hn] using h

lemma initNamesFrom_present (l : List Author) :
    ∀ (k : Nat) (m : String → Option Nat) (n : String),
      (∃ j, ∃ hj : j < l.length, (l.get ⟨j, hj⟩).name = n) →
      ∃ i, initNamesFrom l k m n = some i := by
  induction l with
  | nil => intro k m n ⟨j, hj, _⟩; simp at hj
  | cons a rest ih =>
    intro k m n ⟨j, hj, hname⟩
    cases j with
    | zero =>
      refine initNamesFrom_isSome rest (k + 1) (setName m a.name k) n ⟨k, ?_⟩
      have : a.name = n := by simpa using hname
      simp [setName, this]
    | succ j' =>
      exact ih (k + 1) (setName m a.name k) n ⟨j', by simpa using hj, by simpa using hname⟩

lemma foldl_setName_emails (emails : List String) (i : Nat) (m : String → Option Nat)
    (x : String) :
    (emails.foldl (fun m e => setName m e i) m) x = if x ∈ emails then some i else m x := by
  induction emails generalizing m with
  | nil => simp
  | cons e es ih =>
    rw [List.foldl_cons, ih]
    by_cases hes : x ∈ es <;> by_cases he : x = e <;> simp [setName, hes, he]

lemma buildIdxFrom_some (l : List Author) :
    ∀ (k : Nat) (m : String → Option Nat) (x : String) (i : Nat),
      buildIdxFrom l k m x = some i →
      m x = some i ∨ ∃ j, ∃ hj : j < l.length, i = k + j ∧ x ∈ (l.get ⟨j, hj⟩).emails := by
  induction l with
  | nil => intro k m x i h; exact Or.inl h
  | cons a rest ih =>
    intro k m x i h
    rcases ih (k + 1) (a.emails.foldl (fun m e => setName m e k) m) x i h with
      h1 | ⟨j, hj, rfl, hmem⟩
    · rw [foldl_setName_emails] at h1
      by_cases hx : x ∈ a.emails
      · right
        refine ⟨0, by simp, ?_, by simpa using hx⟩
        have hk : some k = some i := by simpa [hx] using h1
        have hk2 : k = i := by injection hk
        omega
      · exact Or.inl (by simpa [hx] using h1)
    · right
      exact ⟨j + 1, by simpa using Nat.succ_lt_succ hj, by omega, by simpa using hmem⟩

lemma buildIdxFrom_not_mem (l : List Author) :
    ∀ (k : Nat) (m : String → Option Nat) (x : String),
      (∀ a ∈ l, x ∉ a.emails) → buildIdxFrom l k m x = m x := by
  induction l with
  | nil => intro k m x _; rfl
  | cons a rest ih =>
    intro k m x h
    rw [show buildIdxFrom (a :: rest) k m =
      buildIdxFrom rest (k + 1) (a.emails.foldl (fun m e => setName m e k) m) from rfl]
    rw [ih (k + 1) _ x (fun b hb => h b (by simp [hb]))]
    rw [foldl_setName_emails]
    simp [h a (by simp)]

lemma buildIdxFrom_mem_nodup (l : List Author) :
    ∀ (k : Nat) (m : String → Option Nat) (x : String) (j : Nat) (hj : j < l.length),
      (allEmails l).Nodup → x ∈ (l.get ⟨j, hj⟩).emails →
      buildIdxFrom l k m x = some (k + j) := by
  induction l with
  | nil => intro k m x j hj _ _; simp at hj
  | cons a rest ih =>
    intro k m x j hj hnd hx
    have hnd' := (List.nodup_append.mp (by simpa [allEmails_cons] using hnd))
    rw [show buildIdxFrom (a :: rest) k m =
      buildIdxFrom rest (k + 1) (a.emails.foldl (fun m e => setName m e k) m) from rfl]
    cases j with
    | zero =>
      have hxa : x ∈ a.emails := by simpa using hx
      have hnot : ∀ b ∈ rest, x ∉ b.emails := by
        intro b hb hxb
        exact hnd'.2.2 hxa (mem_allEmails.mpr ⟨b, hb, hxb⟩)
      rw [buildIdxFrom_not_mem rest (k + 1) _ x hnot, foldl_setName_emails]
      simp [hxa]
    | succ j' =>
      have hj' : j' < rest.length := by simpa using hj
      have : buildIdxFrom rest (k + 1) (a.emails.foldl (fun m e => setName m e k) m) x
          = some (k + 1 + j') :=
        ih (k + 1) _ x j' hj' hnd'.2.1 (by simpa using hx)
      rw [this]
      congr 1
      omega

lemma buildEmailIdx_some {authors : List Author} {x : String} {i : Nat}
    (h : buildEmailIdx authors x = some i) :
    ∃ hj : i < authors.length, x ∈ (authors.get ⟨i, hj⟩).emails := by
  rcases buildIdxFrom_some authors 0 (fun _ => none) x i h with h1 | ⟨j, hj, rfl, hmem⟩
  · simp at h1
  · exact ⟨by simpa using hj, by simpa using hmem⟩

lemma buildEmailIdx_of_mem {authors : List Author} {x : String} {i : Nat}
    (hi : i < authors.length) (hnd : (allEmails authors).Nodup)
    (hx : x ∈ (authors.get ⟨i, hi⟩).emails) :
    buildEmailIdx authors x = some i := by
  have := buildIdxFrom_mem_nodup authors 0 (fun _ => none) x i hi hnd hx
  simpa using this

lemma buildEmailIdx_of_not_mem {authors : List Author} {x : String}
    (h : x ∉ allEmails authors) :
    buildEmailIdx authors x = none := by
  have : ∀ a ∈ authors, x ∉ a.emails := by
    intro a ha hx
    exact h (mem_allEmails.mpr ⟨a, ha, hx⟩)
  simpa [buildEmailIdx] using buildIdxFrom_not_mem authors 0 (fun _ => none) x this

/-! ## Lookup lemmas for the association-list map of `allAuthors` -/

lemma lookup_setAssoc_self (m : List (String × String)) (k v : String) :
    List.lookup k (setAssoc m k v) = some v := by
  induction m with
  | nil => simp [setAssoc, List.lookup]
  | cons p rest ih =>
    obtain ⟨q, w⟩ := p
    by_cases hq : q = k
    · subst hq
      simp [setAssoc, List.lookup]
    · have hk : (k == q) = false := beq_eq_false_iff_ne.mpr (Ne.symm hq)
      simp [setAssoc, hq, List.lookup, hk, ih]

lemma lookup_setAssoc_ne (m : List (String × String)) (k v e : String) (h : e ≠ k) :
    List.lookup e (setAssoc m k v) = List.lookup e m := by
  have hek : (e == k) = false := beq_eq_false_iff_ne.mpr h
  induction m with
  | nil => simp [setAssoc, List.lookup, hek]
  | cons p rest ih =>
    obtain ⟨q, w⟩ := p
    by_cases hq : q = k
    · subst hq
      simp [setAssoc, List.lookup, hek]
    · cases hq2 : (e == q) <;> simp [setAssoc, hq, List.lookup, hq2, ih]

/-! ## The counting loop of `getContributions` -/

lemma length_countStep (idx : String → Option Nat) (as : List Author) (line : String) :
    (countStep idx as line).length = as.length := by
  unfold countStep
  cases idx line <;> simp [length_incCommitsAt]

lemma length_countFold (idx : String → Option Nat) (stream : List String) :
    ∀ as : List Author, (stream.foldl (countStep idx) as).length = as.length := by
  induction stream with
  | nil => intro as; rfl
  | cons e rest ih =>
    intro as
    rw [List.foldl_cons, ih, length_countStep]

lemma getElem?_incCommitsAt (l : List Author) (i j : Nat) :
    (incCommitsAt l i)[j]? =
      (l[j]?).map (fun a => if j = i then { a with commits := a.commits + 1 } else a) := by
  induction l generalizing i j with
  | nil => simp [incCommitsAt]
  | cons a rest ih =>
    cases i with
    | zero =>
      cases j with
      | zero => simp [incCommitsAt]
      | succ m => simp [incCommitsAt]
    | succ n =>
      cases j with
      | zero => simp [incCommitsAt]
      | succ m => simp [incCommitsAt, ih, Nat.succ_inj]

lemma countStep_getElem? (idx : String → Option Nat) (as : List Author) (line : String)
    (j : Nat) :
    (countStep idx as line)[j]? =
      (as[j]?).map
        (fun a => if idx line = some j then { a with commits := a.commits + 1 } else a) := by
  cases hidx : idx line with
  | none =>
    have : countStep idx as line = as := by simp [countStep, hidx]
    rw [this]
    cases hj : as[j]? <;> simp
  | some i =>
    have : countStep idx as line = incCommitsAt as i := by simp [countStep, hidx]
    rw [this, getElem?_incCommitsAt]
    cases hj : as[j]? with
    | none => simp
    | some a =>
      by_cases hij : j = i
      · simp [hij]
      · have hij2 : ¬i = j := fun h => hij h.symm
        simp [hij, hij2]

lemma countFold_getElem? (idx : String → Option Nat) :
    ∀ (stream : List String) (as : List Author) (j : Nat),
      (stream.foldl (countStep idx) as)[j]? =
        (as[j]?).map
          (fun a =>
            { a with
              commits := a.commits + stream.countP (fun e => decide (idx e = some j)) }) := by
  intro stream
  induction stream with
  | nil =>
    intro as j
    rw [List.foldl_nil]
    cases hj : as[j]? <;> simp
  | cons e rest ih =>
    intro as j
    rw [List.foldl_cons, ih (countStep idx as e) j, countStep_getElem?, Option.map_map,
      List.countP_cons]
    cases hj : as[j]? with
    | none => simp
    | some a =>
      by_cases hc : decide (idx e = some j) = true
      · have hc2 : idx e = some j := of_decide_eq_true hc
        simp [hc, hc2, Function.comp]
        omega
      · have hc2 : ¬idx e = some j := of_decide_eq_false (by simpa using hc)
        simp [hc, hc2, Function.comp]

lemma length_getContributions (authors : List Author) (stream : List String) :
    (getContributions authors stream).length = authors.length := by
  simp [getContributions, length_countFold]

lemma getContributions_getElem? (authors : List Author) (stream : List String) (j : Nat) :
    (getContributions authors stream)[j]? =
      (authors[j]?).map
        (fun a =>
          let c := a.commits + stream.countP (fun e => decide (buildEmailIdx authors e = some j))
          { a with commits := c, geekrank := geekrankOf c }) := by
  rw [getContributions, List.getElem?_map, countFold_getElem?, Option.map_map]
  cases hj : authors[j]? <;> simp

lemma getContributions_commits (authors : List Author) (stream : List String)
    (j : Nat) (hj : j < authors.length) (hj2 : j < (getContributions authors stream).length) :
    ((getContributions authors stream).get ⟨j, hj2⟩).commits =
      (authors.get ⟨j, hj⟩).commits
        + stream.countP (fun e => decide (buildEmailIdx authors e = some j)) := by
  have h1 : (getContributions authors stream)[j]? =
      some ((getContributions authors stream).get ⟨j, hj2⟩) := by
    simp [List.getElem?_eq_getElem, List.get_eq_getElem]
  have h2 : authors[j]? = some (authors.get ⟨j, hj⟩) := by
    simp [List.getElem?_eq_getElem, List.get_eq_getElem]
  have h3 := getContributions_getElem? authors stream j
  rw [h1, h2] at h3
  have h5 : (getContributions authors stream).get ⟨j, hj2⟩ =
      (fun a =>
        let c := a.commits + stream.countP (fun e => decide (buildEmailIdx authors e = some j))
        { a with commits := c, geekrank := geekrankOf c }) (authors.get ⟨j, hj⟩) := by
    injection h3
  rw [h5]

lemma getContributions_geekrank (authors : List Author) (stream : List String)
    (j : Nat) (hj : j < authors.length) (hj2 : j < (getContributions authors stream).length) :
    ((getContributions authors stream).get ⟨j, hj2⟩).geekrank =
      geekrankOf ((getContributions authors stream).get ⟨j, hj2⟩).commits := by
  have h1 : (getContributions authors stream)[j]? =
      some ((getContributions authors stream).get ⟨j, hj2⟩) := by
    simp [List.getElem?_eq_getElem, List.get_eq_getElem]
  have h2 : authors[j]? = some (authors.get ⟨j, hj⟩) := by
    simp [List.getElem?_eq_getElem, List.get_eq_getElem]
  have h3 := getContributions_getElem? authors stream j
  rw [h1, h2] at h3
  have h5 : (getContributions authors stream).get ⟨j, hj2⟩ =
      (fun a =>
        let c := a.commits + stream.countP (fun e => decide (buildEmailIdx authors e = some j))
        { a with commits := c, geekrank := geekrankOf c }) (authors.get ⟨j, hj⟩) := by
    injection h3
  rw [h5]

/-! ## The `allAuthors` name map -/

lemma headNonEmpty_cons (s : String) (l : List String) :
    headNonEmpty (s :: l) = if s = "" then headNonEmpty l else s := by
  by_cases hs : s = "" <;> simp [headNonEmpty, hs]

lemma allAuthors_lookup_fold (exclude : List String) :
    ∀ (l : List Record) (m : List (String × String)) (e : String),
      List.lookup e (l.foldl (allAuthorsStep exclude) m) =
        match List.lookup e m with
        | some v => if v = "" then some (headNonEmpty (namesFor exclude l e)) else some v
        | none =>
            if namesFor exclude l e = [] then none
            else some (headNonEmpty (namesFor exclude l e)) := by
  intro l
  induction l with
  | nil =>
    intro m e
    cases hv : List.lookup e m with
    | none => simp [namesFor, hv]
    | some v => by_cases h : v = "" <;> simp [namesFor, headNonEmpty, h, hv]
  | cons r rest ih =>
    intro m e
    rw [List.foldl_cons]
    by_cases hex : r.hash ∈ exclude
    · have hstep : allAuthorsStep exclude m r = m := by simp [allAuthorsStep, hex]
      have hnames : namesFor exclude (r :: rest) e = namesFor exclude rest e := by
        simp [namesFor, hex]
      rw [hstep, hnames, ih]
    · by_cases hre : r.email = e
      · have hnames : namesFor exclude (r :: rest) e =
            r.name :: namesFor exclude rest e := by
          simp [namesFor, hex, hre]
        rw [hnames]
        cases hv : List.lookup e m with
        | some v =>
          by_cases hvz : v = ""
          · have hstep : allAuthorsStep exclude m r = setAssoc m r.email r.name := by
              simp [allAuthorsStep, hex, hre, hv, hvz]
            rw [hstep, ih]
            rw [hre, lookup_setAssoc_self]
            rw [headNonEmpty_cons]
            by_cases hrn : r.name = "" <;> simp [hv, hvz, hrn]
          · have hstep : allAuthorsStep exclude m r = m := by
              simp [allAuthorsStep, hex, hre, hv, hvz]
            rw [hstep, ih]
            simp [hv, hvz]
        | none =>
          have hstep : allAuthorsStep exclude m r = setAssoc m r.email r.name := by
            simp [allAuthorsStep, hex, hre, hv]
          rw [hstep, ih]
          rw [hre, lookup_setAssoc_self]
          rw [headNonEmpty_cons]
          by_cases hrn : r.name = "" <;> simp [hv, hrn]
      · have hnames : namesFor exclude (r :: rest) e = namesFor exclude rest e := by
          simp [namesFor, hex, hre]
        have hlook : List.lookup e (allAuthorsStep exclude m r) = List.lookup e m := by
          unfold allAuthorsStep
          rw [if_neg (by simpa using hex)]
          split
          · exact lookup_setAssoc_ne m r.email r.name e (fun h => hre h.symm)
          · rfl
        rw [ih (allAuthorsStep exclude m r) e, hlook, hnames]

/-! ## The reconciliation loop -/

lemma recStep_of_listed {st : RecState} {p : String × String}
    (h : st.listed p.1 = true) : recStep st p = st := by
  simp [recStep, h]

lemma recStep_listed_eq {st : RecState} {p : String × String}
    (h : st.listed p.1 = false) :
    (recStep st p).listed = addListed st.listed p.1 := by
  simp only [recStep, h]
  cases st.names p.2 with
  | some i => by_cases hp : p.2 = "" <;> simp [hp, createAuthor]
  | none => simp [createAuthor]

lemma recStep_listed_mono {st : RecState} {p : String × String} {e : String}
    (h : st.listed e = true) : (recStep st p).listed e = true := by
  cases hl : st.listed p.1 with
  | true => rw [recStep_of_listed hl]; exact h
  | false =>
    rw [recStep_listed_eq hl]
    by_cases he : e = p.1 <;> simp [addListed, he, h]

lemma recStep_listed_self {st : RecState} {p : String × String} :
    (recStep st p).listed p.1 = true := by
  cases hl : st.listed p.1 with
  | true => rw [recStep_of_listed hl]; exact hl
  | false =>
    rw [recStep_listed_eq hl]
    simp [addListed]

lemma foldRec_listed_mono (d : List (String × String)) :
    ∀ (st : RecState) (e : String), st.listed e = true →
      (d.foldl recStep st).listed e = true := by
  induction d with
  | nil => intro st e h; exact h
  | cons p rest ih =>
    intro st e h
    rw [List.foldl_cons]
    exact ih (recStep st p) e (recStep_listed_mono h)

lemma foldRec_key_listed (d : List (String × String)) :
    ∀ (st : RecState) (p : String × String), p ∈ d →
      (d.foldl recStep st).listed p.1 = true := by
  induction d with
  | nil => intro st p hp; simp at hp
  | cons q rest ih =>
    intro st p hp
    rw [List.foldl_cons]
    rcases List.mem_cons.mp hp with rfl | hp2
    · exact foldRec_listed_mono rest (recStep st p) p.1 recStep_listed_self
    · exact ih (recStep st q) p hp2

lemma foldRec_skip_all (d : List (String × String)) :
    ∀ st : RecState, (∀ p ∈ d, st.listed p.1 = true) →
      d.foldl recStep st = st := by
  induction d with
  | nil => intro st _; rfl
  | cons p rest ih =>
    intro st h
    rw [List.foldl_cons, recStep_of_listed (h p (by simp))]
    exact ih st (fun q hq => h q (by simp [hq]))

lemma listedOk_init (authors : List Author) : ListedOk (initState authors) :=
  fun e => initListed_spec authors e

lemma namesOk_init (authors : List Author) : NamesOk (initState authors) := by
  intro n i h
  rcases initNamesFrom_some authors 0 (fun _ => none) n i h with h1 | ⟨j, hj, rfl, hname⟩
  · simp at h1
  · exact ⟨by simpa using hj, by simpa using hname⟩

lemma name_get_appendEmailAt (l : List Author) (i : Nat) (e : String) (j : Nat)
    (hj : j < l.length) (hj2 : j < (appendEmailAt l i e).length) :
    ((appendEmailAt l i e).get ⟨j, hj2⟩).name = (l.get ⟨j, hj⟩).name := by
  rw [get_appendEmailAt l i e j hj hj2]
  split <;> rfl

lemma allEmails_createAuthor (st : RecState) (email name : String) :
    allEmails (createAuthor st email name).authors = allEmails st.authors ++ [email] := by
  simp [createAuthor, allEmails_append, allEmails, newAuthor, zeroAuthor]

lemma createAuthor_inv {st : RecState} {email name : String}
    (hL : ListedOk st) (hN : NamesOk st) :
    ListedOk (createAuthor st email name) ∧ NamesOk (createAuthor st email name) := by
  constructor
  · intro e
    rw [show (createAuthor st email name).listed = addListed st.listed email from rfl,
      allEmails_createAuthor]
    by_cases he : e = email
    · simp [addListed, he]
    · simp [addListed, he, hL e]
  · intro n k hk
    rw [show (createAuthor st email name).names = setName st.names name st.authors.length
      from rfl] at hk
    have hlen : (createAuthor st email name).authors.length = st.authors.length + 1 := by
      simp [createAuthor]
    by_cases hn : n = name
    · have hkv : k = st.authors.length := by
        have : some st.authors.length = some k := by simpa [setName, hn] using hk
        injection this with h2
        omega
      subst hkv
      refine ⟨by omega, ?_⟩
      show ((st.authors ++ [newAuthor name email]).get ⟨st.authors.length, _⟩).name = n
      simp [List.get_eq_getElem, List.getElem_append_right, newAuthor, zeroAuthor, hn]
    · have hk2 : st.names n = some k := by simpa [setName, hn] using hk
      obtain ⟨hkb, hkname⟩ := hN n k hk2
      refine ⟨by omega, ?_⟩
      show ((st.authors ++ [newAuthor name email]).get ⟨k, _⟩).name = n
      rw [List.get_eq_getElem, List.getElem_append_left hkb]
      rw [List.get_eq_getElem] at hkname
      exact hkname

lemma recStep_inv {st : RecState} (p : String × String)
    (hL : ListedOk st) (hN : NamesOk st) :
    ListedOk (recStep st p) ∧ NamesOk (recStep st p) := by
  cases hl : st.listed p.1 with
  | true => rw [recStep_of_listed hl]; exact ⟨hL, hN⟩
  | false =>
    cases hsn : st.names p.2 with
    | some i =>
      by_cases hp : p.2 = ""
      · -- create branch (name is empty, the name match is not used)
        have hst : recStep st p = createAuthor st p.1 p.2 := by
          unfold recStep
          rw [hsn]
          simp [hl, hp]
        rw [hst]
        exact createAuthor_inv hL hN
      · -- merge branch
        obtain ⟨hi, hiname⟩ := hN p.2 i hsn
        have hst : recStep st p =
            { authors := appendEmailAt st.authors i p.1,
              listed := addListed st.listed p.1,
              names := st.names } := by
          simp [recStep, hl, hsn, hp]
        rw [hst]
        have hperm := allEmails_appendEmailAt_perm st.authors i p.1 hi
        constructor
        · intro e
          have hmem : e ∈ allEmails (appendEmailAt st.authors i p.1) ↔
              e = p.1 ∨ e ∈ allEmails st.authors := by
            rw [hperm.mem_iff]
            simp
          by_cases he : e = p.1
          · subst he
            simp [addListed, hmem]
          · simp only [hmem]
            simp [addListed, he, hL e]
        · intro n k hk
          obtain ⟨hk2, hkname⟩ := hN n k hk
          have hk3 : k < (appendEmailAt st.authors i p.1).length := by
            rw [length_appendEmailAt]; exact hk2
          exact ⟨hk3, by rw [name_get_appendEmailAt st.authors i p.1 k hk2 hk3]; exact hkname⟩
    | none =>
      have hst : recStep st p = createAuthor st p.1 p.2 := by
        simp [recStep, hl, hsn]
      rw [hst]
      exact createAuthor_inv hL hN

lemma foldRec_inv (d : List (String × String)) :
    ∀ st : RecState, ListedOk st → NamesOk st →
      ListedOk (d.foldl recStep st) ∧ NamesOk (d.foldl recStep st) := by
  induction d with
  | nil => intro st hL hN; exact ⟨hL, hN⟩
  | cons p rest ih =>
    intro st hL hN
    rw [List.foldl_cons]
    obtain ⟨hL2, hN2⟩ := recStep_inv p hL hN
    exact ih (recStep st p) hL2 hN2

/-! ### Shapes of one reconciliation step -/

lemma recStep_merge {st : RecState} {p : String × String} {i : Nat}
    (hl : st.listed p.1 = false) (hsn : st.names p.2 = some i) (hp : p.2 ≠ "") :
    recStep st p =
      { authors := appendEmailAt st.authors i p.1,
        listed := addListed st.listed p.1,
        names := st.names } := by
  unfold recStep
  rw [hsn]
  simp [hl, hp]

lemma recStep_create_of_none {st : RecState} {p : String × String}
    (hl : st.listed p.1 = false) (hsn : st.names p.2 = none) :
    recStep st p = createAuthor st p.1 p.2 := by
  unfold recStep
  rw [hsn]
  simp [hl]

lemma recStep_create_of_empty {st : RecState} {p : String × String} {i : Nat}
    (hl : st.listed p.1 = false) (hsn : st.names p.2 = some i) (hp : p.2 = "") :
    recStep st p = createAuthor st p.1 p.2 := by
  unfold recStep
  rw [hsn]
  simp [hl, hp]

/-! ### Nodup preservation (email uniqueness) -/

lemma nodup_recStep {st : RecState} (p : String × String)
    (hL : ListedOk st) (hN : NamesOk st) (hnd : (allEmails st.authors).Nodup) :
    (allEmails (recStep st p).authors).Nodup := by
  cases hl : st.listed p.1 with
  | true => rw [recStep_of_listed hl]; exact hnd
  | false =>
    have hnotmem : p.1 ∉ allEmails st.authors := by
      intro hmem
      have h := (hL p.1).mpr hmem
      rw [hl] at h
      exact Bool.noConfusion h
    have hcreate : (allEmails (createAuthor st p.1 p.2).authors).Nodup := by
      rw [allEmails_createAuthor]
      rw [List.nodup_append]
      exact ⟨hnd, List.nodup_singleton _, by
        intro x hx hx2
        rw [List.mem_singleton] at hx2
        subst hx2
        exact hnotmem hx⟩
    cases hsn : st.names p.2 with
    | some i =>
      by_cases hp : p.2 = ""
      · rw [recStep_create_of_empty hl hsn hp]; exact hcreate
      · obtain ⟨hi, _⟩ := hN p.2 i hsn
        rw [recStep_merge hl hsn hp]
        have hperm := allEmails_appendEmailAt_perm st.authors i p.1 hi
        rw [hperm.nodup_iff]
        exact List.nodup_cons.mpr ⟨hnotmem, hnd⟩
    | none => rw [recStep_create_of_none hl hsn]; exact hcreate

lemma foldRec_nodup (d : List (String × String)) :
    ∀ st : RecState, ListedOk st → NamesOk st → (allEmails st.authors).Nodup →
      (allEmails (d.foldl recStep st).authors).Nodup := by
  induction d with
  | nil => intro st _ _ hnd; exact hnd
  | cons p rest ih =>
    intro st hL hN hnd
    rw [List.foldl_cons]
    obtain ⟨hL2, hN2⟩ := recStep_inv p hL hN
    exact ih (recStep st p) hL2 hN2 (nodup_recStep p hL hN hnd)

lemma countP_one_of_nodup (l : List Author) (e : String)
    (hnd : (allEmails l).Nodup) (he : e ∈ allEmails l) :
    l.countP (fun a => a.emails.contains e) = 1 := by
  induction l with
  | nil => simp [allEmails] at he
  | cons a rest ih =>
    rw [allEmails_cons] at hnd he
    obtain ⟨nd1, nd2, disj⟩ := List.nodup_append.mp hnd
    rw [List.countP_cons]
    by_cases ha : e ∈ a.emails
    · have hnot : ∀ b ∈ rest, e ∉ b.emails := fun b hb hxb =>
        disj ha (mem_allEmails.mpr ⟨b, hb, hxb⟩)
      have h0 : rest.countP (fun a => a.emails.contains e) = 0 :=
        List.countP_eq_zero.mpr (by intro b hb; simpa using hnot b hb)
      rw [h0]
      simp [ha]
    · have he2 : e ∈ allEmails rest := by
        rcases List.mem_append.mp he with h | h
        · exact absurd h ha
        · exact h
      rw [ih nd2 he2]
      simp [ha]

/-! ### Stability of the `names` index and of prefix names -/

lemma recStep_names_stable {st : RecState} {p : String × String} {n : String} {i : Nat}
    (hn : n ≠ "") (h : st.names n = some i) :
    (recStep st p).names n = some i := by
  cases hl : st.listed p.1 with
  | true => rw [recStep_of_listed hl]; exact h
  | false =>
    cases hsn : st.names p.2 with
    | some k =>
      by_cases hp : p.2 = ""
      · rw [recStep_create_of_empty hl hsn hp]
        show setName st.names p.2 st.authors.length n = some i
        simp only [setName]
        rw [if_neg (by rw [hp]; exact hn)]
        exact h
      · rw [recStep_merge hl hsn hp]
        exact h
    | none =>
      have hne : n ≠ p.2 := by
        intro heq
        rw [heq, hsn] at h
        exact Option.noConfusion h
      rw [recStep_create_of_none hl hsn]
      show setName st.names p.2 st.authors.length n = some i
      simp only [setName]
      rw [if_neg hne]
      exact h

lemma recStep_name_stable (st : RecState) (p : String × String) (j : Nat)
    (hj : j < st.authors.length) :
    ∃ hj2 : j < (recStep st p).authors.length,
      ((recStep st p).authors.get ⟨j, hj2⟩).name = (st.authors.get ⟨j, hj⟩).name := by
  cases hl : st.listed p.1 with
  | true => rw [recStep_of_listed hl]; exact ⟨hj, rfl⟩
  | false =>
    have hcreate : ∃ hj2 : j < (createAuthor st p.1 p.2).authors.length,
        ((createAuthor st p.1 p.2).authors.get ⟨j, hj2⟩).name =
          (st.authors.get ⟨j, hj⟩).name := by
      have hlen : (createAuthor st p.1 p.2).authors.length = st.authors.length + 1 := by
        simp [createAuthor]
      refine ⟨by omega, ?_⟩
      show ((st.authors ++ [newAuthor p.2 p.1]).get ⟨j, _⟩).name = _
      rw [List.get_eq_getElem, List.getElem_append_left hj, List.get_eq_getElem]
    cases hsn : st.names p.2 with
    | some k =>
      by_cases hp : p.2 = ""
      · rw [recStep_create_of_empty hl hsn hp]; exact hcreate
      · rw [recStep_merge hl hsn hp]
        have hj2 : j < (appendEmailAt st.authors k p.1).length := by
          rw [length_appendEmailAt]; exact hj
        exact ⟨hj2, name_get_appendEmailAt st.authors k p.1 j hj hj2⟩
    | none => rw [recStep_create_of_none hl hsn]; exact hcreate

lemma foldRec_name_stable (d : List (String × String)) :
    ∀ (st : RecState) (j : Nat) (hj : j < st.authors.length),
      ∃ hj2 : j < (d.foldl recStep st).authors.length,
        ((d.foldl recStep st).authors.get ⟨j, hj2⟩).name =
          (st.authors.get ⟨j, hj⟩).name := by
  induction d with
  | nil => intro st j hj; exact ⟨hj, rfl⟩
  | cons p rest ih =>
    intro st j hj
    rw [List.foldl_cons]
    obtain ⟨hj2, heq⟩ := recStep_name_stable st p j hj
    obtain ⟨hj3, heq2⟩ := ih (recStep st p) j hj2
    exact ⟨hj3, heq2.trans heq⟩

/-! ### The pre- and post-invariants around one merged email -/

lemma preInv_step {e2 n : String} {i0 : Nat} {st : RecState} {p : String × String}
    (hn : n ≠ "") (hne : p.1 ≠ e2) (hpre : PreInv e2 n i0 st) :
    PreInv e2 n i0 (recStep st p) := by
  obtain ⟨h1, h2, h3⟩ := hpre
  refine ⟨?_, ?_, recStep_names_stable hn h3⟩
  · cases hl : st.listed p.1 with
    | true => rw [recStep_of_listed hl]; exact h1
    | false =>
      rw [recStep_listed_eq hl]
      show (if e2 = p.1 then true else st.listed e2) = false
      rw [if_neg (fun hh => hne hh.symm)]
      exact h1
  · intro hmem
    have hin : e2 ∈ allEmails (createAuthor st p.1 p.2).authors → False := by
      rw [allEmails_createAuthor]
      intro hmm
      rcases List.mem_append.mp hmm with hmm2 | hmm2
      · exact h2 hmm2
      · rw [List.mem_singleton] at hmm2
        exact hne hmm2.symm
    cases hl : st.listed p.1 with
    | true => rw [recStep_of_listed hl] at hmem; exact h2 hmem
    | false =>
      cases hsn : st.names p.2 with
      | some k =>
        by_cases hp : p.2 = ""
        · rw [recStep_create_of_empty hl hsn hp] at hmem; exact hin hmem
        · rw [recStep_merge hl hsn hp] at hmem
          rcases mem_allEmails_appendEmailAt st.authors k p.1 hmem with hmm | hmm
          · exact h2 hmm
          · exact hne hmm.symm
      | none => rw [recStep_create_of_none hl hsn] at hmem; exact hin hmem

lemma preInv_fold {e2 n : String} {i0 : Nat} (d : List (String × String)) :
    ∀ st : RecState, n ≠ "" → (∀ p ∈ d, p.1 ≠ e2) → PreInv e2 n i0 st →
      PreInv e2 n i0 (d.foldl recStep st) := by
  induction d with
  | nil => intro st _ _ h; exact h
  | cons p rest ih =>
    intro st hn hne h
    rw [List.foldl_cons]
    exact ih (recStep st p) hn (fun q hq => hne q (by simp [hq]))
      (preInv_step hn (hne p (by simp)) h)

lemma postInv_append {e2 : String} {i0 : Nat} (l : List Author) (k : Nat) (p1 : String)
    (hne : p1 ≠ e2)
    (h1 : ∃ hj : i0 < l.length, e2 ∈ (l.get ⟨i0, hj⟩).emails)
    (h2 : ∀ j, ∀ hj : j < l.length, j ≠ i0 → e2 ∉ (l.get ⟨j, hj⟩).emails) :
    (∃ hj : i0 < (appendEmailAt l k p1).length,
        e2 ∈ ((appendEmailAt l k p1).get ⟨i0, hj⟩).emails) ∧
    ∀ j, ∀ hj : j < (appendEmailAt l k p1).length, j ≠ i0 →
        e2 ∉ ((appendEmailAt l k p1).get ⟨j, hj⟩).emails := by
  obtain ⟨hi0, hmem⟩ := h1
  constructor
  · refine ⟨by rw [length_appendEmailAt]; exact hi0, ?_⟩
    rw [get_appendEmailAt l k p1 i0 hi0]
    split
    · exact List.mem_append_left _ hmem
    · exact hmem
  · intro j hj hne0
    have hj0 : j < l.length := by rw [length_appendEmailAt] at hj; exact hj
    rw [get_appendEmailAt l k p1 j hj0]
    split
    · intro hmm
      rcases List.mem_append.mp hmm with hmm2 | hmm2
      · exact h2 j hj0 hne0 hmm2
      · rw [List.mem_singleton] at hmm2
        exact hne hmm2.symm
    · exact h2 j hj0 hne0

lemma postInv_concat {e2 : String} {i0 : Nat} (l : List Author) (a : Author)
    (hae : e2 ∉ a.emails)
    (h1 : ∃ hj : i0 < l.length, e2 ∈ (l.get ⟨i0, hj⟩).emails)
    (h2 : ∀ j, ∀ hj : j < l.length, j ≠ i0 → e2 ∉ (l.get ⟨j, hj⟩).emails) :
    (∃ hj : i0 < (l ++ [a]).length, e2 ∈ ((l ++ [a]).get ⟨i0, hj⟩).emails) ∧
    ∀ j, ∀ hj : j < (l ++ [a]).length, j ≠ i0 →
        e2 ∉ ((l ++ [a]).get ⟨j, hj⟩).emails := by
  obtain ⟨hi0, hmem⟩ := h1
  constructor
  · refine ⟨by simp; omega, ?_⟩
    rw [List.get_eq_getElem, List.getElem_append_left hi0]
    rw [List.get_eq_getElem] at hmem
    exact hmem
  · intro j hj hne0
    by_cases hjl : j < l.length
    · rw [List.get_eq_getElem, List.getElem_append_left hjl]
      have := h2 j hjl hne0
      rw [List.get_eq_getElem] at this
      exact this
    · have hje : j = l.length := by
        have : j < l.length + 1 := by simpa using hj
        omega
      subst hje
      rw [List.get_eq_getElem, List.getElem_append_right (le_refl _)]
      simpa using hae

lemma postInv_step {e2 : String} {i0 : Nat} {st : RecState} {p : String × String}
    (hne : p.1 ≠ e2) (hpost : PostInv e2 i0 st) :
    PostInv e2 i0 (recStep st p) := by
  obtain ⟨h1, h2⟩ := hpost
  cases hl : st.listed p.1 with
  | true => rw [recStep_of_listed hl]; exact ⟨h1, h2⟩
  | false =>
    have hae : e2 ∉ (newAuthor p.2 p.1).emails := by
      simp [newAuthor, zeroAuthor]
      exact fun hh => hne hh.symm
    have hcreate : PostInv e2 i0 (createAuthor st p.1 p.2) :=
      postInv_concat st.authors (newAuthor p.2 p.1) hae h1 h2
    cases hsn : st.names p.2 with
    | some k =>
      by_cases hp : p.2 = ""
      · rw [recStep_create_of_empty hl hsn hp]; exact hcreate
      · rw [recStep_merge hl hsn hp]
        exact postInv_append st.authors k p.1 hne h1 h2
    | none => rw [recStep_create_of_none hl hsn]; exact hcreate

lemma postInv_fold {e2 : String} {i0 : Nat} (d : List (String × String)) :
    ∀ st : RecState, (∀ p ∈ d, p.1 ≠ e2) → PostInv e2 i0 st →
      PostInv e2 i0 (d.foldl recStep st) := by
  induction d with
  | nil => intro st _ h; exact h
  | cons p rest ih =>
    intro st hne h
    rw [List.foldl_cons]
    exact ih (recStep st p) (fun q hq => hne q (by simp [hq]))
      (postInv_step (hne p (by simp)) h)

/-! ### Key uniqueness of the `allAuthors` map -/

lemma keys_setAssoc (m : List (String × String)) (k v : String) (x : String) :
    x ∈ (setAssoc m k v).map Prod.fst ↔ x ∈ m.map Prod.fst ∨ x = k := by
  induction m with
  | nil => simp [setAssoc]
  | cons p rest ih =>
    obtain ⟨q, w⟩ := p
    by_cases hq : q = k
    · subst hq
      simp [setAssoc]
      tauto
    · simp [setAssoc, hq, ih]
      tauto

lemma keys_nodup_setAssoc (m : List (String × String)) (k v : String)
    (h : (m.map Prod.fst).Nodup) : ((setAssoc m k v).map Prod.fst).Nodup := by
  induction m with
  | nil => simp [setAssoc]
  | cons p rest ih =>
    obtain ⟨q, w⟩ := p
    rw [List.map_cons, List.nodup_cons] at h
    by_cases hq : q = k
    · subst hq
      rw [show setAssoc ((q, w) :: rest) q v = (q, v) :: rest by simp [setAssoc]]
      rw [List.map_cons, List.nodup_cons]
      exact h
    · rw [show setAssoc ((q, w) :: rest) k v = (q, w) :: setAssoc rest k v by
        simp [setAssoc, hq]]
      rw [List.map_cons, List.nodup_cons]
      refine ⟨?_, ih h.2⟩
      intro hmm
      rcases (keys_setAssoc rest k v q).mp hmm with hmm2 | hmm2
      · exact h.1 hmm2
      · exact hq hmm2

lemma allAuthors_keys_nodup (exclude : List String) (history : List Record) :
    ((allAuthors exclude history).map Prod.fst).Nodup := by
  suffices h : ∀ (l : List Record) (m : List (String × String)),
      (m.map Prod.fst).Nodup → ((l.foldl (allAuthorsStep exclude) m).map Prod.fst).Nodup by
    exact h history [] (by simp)
  intro l
  induction l with
  | nil => intro m hm; exact hm
  | cons r rest ih =>
    intro m hm
    rw [List.foldl_cons]
    refine ih (allAuthorsStep exclude m r) ?_
    unfold allAuthorsStep
    split
    · exact hm
    · split
      · exact keys_nodup_setAssoc m r.email r.name hm
      · exact hm

/-! ## The roster parser -/

lemma string_mk_ne_empty (cs : List Char) (h : cs ≠ []) : (⟨cs⟩ : String) ≠ "" := by
  intro heq
  apply h
  have h2 := congrArg String.data heq
  simpa using h2

lemma fieldsAux_ne_empty : ∀ (l acc : List Char) (f : String), f ∈ fieldsAux l acc → f ≠ "" := by
  intro l
  induction l with
  | nil =>
    intro acc f hf
    simp only [fieldsAux] at hf
    by_cases ha : acc.isEmpty = true
    · rw [if_pos ha] at hf
      simp at hf
    · rw [if_neg ha] at hf
      rw [List.mem_singleton] at hf
      subst hf
      apply string_mk_ne_empty
      intro hrev
      rw [List.reverse_eq_nil_iff] at hrev
      subst hrev
      exact ha rfl
  | cons c cs ih =>
    intro acc f hf
    simp only [fieldsAux] at hf
    by_cases hw : c.isWhitespace = true
    · rw [if_pos hw] at hf
      by_cases ha : acc.isEmpty = true
      · rw [if_pos ha] at hf
        exact ih [] f hf
      · rw [if_neg ha] at hf
        rcases List.mem_cons.mp hf with rfl | hf2
        · apply string_mk_ne_empty
          intro hrev
          rw [List.reverse_eq_nil_iff] at hrev
          subst hrev
          exact ha rfl
        · exact ih [] f hf2
    · rw [if_neg hw] at hf
      exact ih (c :: acc) f hf

lemma fieldsOf_ne_empty (s : String) : ∀ f ∈ fieldsOf s, f ≠ "" :=
  fun f hf => fieldsAux_ne_empty s.data [] f hf

lemma getLast?_cons_getD (x y : String) (l : List String) :
    ((x :: l).getLast?).getD y = (l.getLast?).getD x := by
  cases l with
  | nil => simp
  | cons z zs =>
    obtain ⟨v, hv⟩ : ∃ v, (z :: zs).getLast? = some v :=
      Option.isSome_iff_exists.mp (by simp [List.getLast?_isSome])
    simp [List.getLast?_cons_cons, hv]

lemma joinFrom_cons (n f : String) (ps : List String) :
    joinFrom n (f :: ps) = joinFrom (if n = "" then f else n ++ " " ++ f) ps := rfl

lemma append_space_ne (n f : String) : n ++ " " ++ f ≠ "" := by
  intro h
  have h2 := congrArg String.length h
  rw [String.length_append, String.length_append] at h2
  have h3 : (" " : String).length = 1 := rfl
  have h4 : ("" : String).length = 0 := rfl
  rw [h3, h4] at h2
  omega

lemma joinFrom_of_ne (ps : List String) :
    ∀ n : String, n ≠ "" → joinFrom n ps = joinSp (n :: ps) := by
  induction ps with
  | nil => intro n hn; rfl
  | cons f fs ih =>
    intro n hn
    rw [joinFrom_cons, if_neg hn, ih (n ++ " " ++ f) (append_space_ne n f)]
    cases fs with
    | nil => simp [joinSp, String.append_assoc]
    | cons g gs => simp [joinSp, String.append_assoc]

lemma joinFrom_empty (ps : List String) (h : ∀ f ∈ ps, f ≠ "") :
    joinFrom "" ps = joinSp ps := by
  cases ps with
  | nil => rfl
  | cons f fs =>
    rw [joinFrom_cons, if_pos rfl]
    exact joinFrom_of_ne fs f (h f (by simp))

lemma parse_foldl (fs : List String) :
    ∀ a : Author,
      fs.foldl parseField a =
        { name := joinFrom a.name (fs.filter isPlainField),
          nickname := ((fs.filterMap nickOf).getLast?).getD a.nickname,
          emails := a.emails ++ fs.filterMap emailTokenOf,
          commits := a.commits,
          geekrank := a.geekrank } := by
  induction fs with
  | nil =>
    intro a
    simp [joinFrom]
  | cons f fs ih =>
    intro a
    rw [List.foldl_cons, ih (parseField a f)]
    cases hnick : findDelim '(' ')' f with
    | some nk =>
      have hpf : parseField a f = { a with nickname := nk } := by
        unfold parseField
        rw [hnick]
      have hplain : isPlainField f = false := by simp [isPlainField, hnick]
      have hemail : emailTokenOf f = none := by simp [emailTokenOf, hnick]
      have hnk : nickOf f = some nk := hnick
      rw [hpf]
      simp [List.filter_cons, hplain, List.filterMap_cons, hnk, hemail,
        getLast?_cons_getD]
    | none =>
      cases hem : findDelim '<' '>' f with
      | some em =>
        have hpf : parseField a f = { a with emails := a.emails ++ [em] } := by
          unfold parseField
          rw [hnick, hem]
        have hplain : isPlainField f = false := by simp [isPlainField, hnick, hem]
        have hemail : emailTokenOf f = some em := by simp [emailTokenOf, hnick, hem]
        have hnk : nickOf f = none := hnick
        rw [hpf]
        simp [List.filter_cons, hplain, List.filterMap_cons, hnk, hemail]
      | none =>
        have hpf : parseField a f =
            { a with name := if a.name = "" then f else a.name ++ " " ++ f } := by
          unfold parseField
          rw [hnick, hem]
        have hplain : isPlainField f = true := by simp [isPlainField, hnick, hem]
        have hemail : emailTokenOf f = none := by simp [emailTokenOf, hnick, hem]
        have hnk : nickOf f = none := hnick
        rw [hpf]
        simp [List.filter_cons, hplain, List.filterMap_cons, hnk, hemail, joinFrom_cons]

/-! ## The filter loop -/

lemma filterLoop_eq (minC : Nat) (pat : String) :
    ∀ (l : List Author) (i : Nat),
      filterLoop minC pat l i =
        l.take i ++ (l.drop i).filter (fun a => !removePred minC pat a) := by
  intro l i
  induction l, i using filterLoop.induct minC pat with
  | case1 l i h hrem ih =>
    rw [filterLoop]
    rw [dif_pos h, if_pos hrem, ih]
    rw [List.eraseIdx_eq_take_drop_succ]
    have hlen : (l.take i).length = i := by
      rw [List.length_take]
      omega
    rw [List.take_append_of_le_length (by omega), List.take_take, min_self,
      List.drop_append_of_le_length (by omega)]
    rw [List.drop_of_length_le (by omega)]
    rw [List.drop_eq_getElem_cons h, List.filter_cons]
    have hrem2 : (!removePred minC pat l[i]) = false := by
      rw [List.get_eq_getElem] at hrem
      simp [hrem]
    rw [hrem2]
    simp
  | case2 l i h hrem ih =>
    rw [filterLoop]
    rw [dif_pos h, if_neg hrem, ih]
    rw [List.drop_eq_getElem_cons h, List.filter_cons]
    have hrem2 : (!removePred minC pat l[i]) = true := by
      rw [List.get_eq_getElem] at hrem
      simp [hrem]
    rw [hrem2]
    have htake : List.take (i + 1) l = List.take i l ++ [l[i]] := by
      rw [List.take_succ, List.getElem?_eq_getElem h]
      rfl
    rw [htake, List.append_assoc, List.singleton_append]
    simp
  | case3 l i h =>
    rw [filterLoop]
    rw [dif_neg h]
    rw [List.take_of_length_le (by omega), List.drop_of_length_le (by omega)]
    simp

lemma removePred_keep (minC : Nat) (pat : String) (a : Author) :
    (!removePred minC pat a) = keepPred minC pat a := by
  simp [removePred, keepPred, Bool.not_or, ← decide_not, Nat.not_lt, Bool.and_comm]

lemma filterLoop_eq_pureFilter (minC : Nat) (pat : String) (l : List Author) :
    filterLoop minC pat l 0 = pureFilter minC pat l := by
  rw [filterLoop_eq, pureFilter, List.take_zero, List.drop_zero, List.nil_append]
  exact List.filter_congr (fun a _ => removePred_keep minC pat a)

/-! ## Commit counts start at zero through reconciliation -/

lemma commits_zero_appendEmailAt (l : List Author) (i : Nat) (e : String)
    (h : ∀ a ∈ l, a.commits = 0) : ∀ a ∈ appendEmailAt l i e, a.commits = 0 := by
  induction l generalizing i with
  | nil => intro a ha; simp [appendEmailAt] at ha
  | cons b rest ih =>
    cases i with
    | zero =>
      intro a ha
      rcases List.mem_cons.mp ha with rfl | ha2
      · exact h b (by simp)
      · exact h a (by simp [ha2])
    | succ n =>
      intro a ha
      rcases List.mem_cons.mp ha with rfl | ha2
      · exact h a (by simp)
      · exact ih n (fun c hc => h c (by simp [hc])) a ha2

lemma commits_zero_recStep (st : RecState) (p : String × String)
    (h : ∀ a ∈ st.authors, a.commits = 0) :
    ∀ a ∈ (recStep st p).authors, a.commits = 0 := by
  have hcreate : ∀ a ∈ (createAuthor st p.1 p.2).authors, a.commits = 0 := by
    intro a ha
    rcases List.mem_append.mp ha with ha2 | ha2
    · exact h a ha2
    · rw [List.mem_singleton] at ha2
      subst ha2
      rfl
  cases hl : st.listed p.1 with
  | true => rw [recStep_of_listed hl]; exact h
  | false =>
    cases hsn : st.names p.2 with
    | some k =>
      by_cases hp : p.2 = ""
      · rw [recStep_create_of_empty hl hsn hp]; exact hcreate
      · rw [recStep_merge hl hsn hp]
        exact commits_zero_appendEmailAt st.authors k p.1 h
    | none => rw [recStep_create_of_none hl hsn]; exact hcreate

lemma commits_zero_reconcile (roster : List Author) (d : List (String × String))
    (h : ∀ a ∈ roster, a.commits = 0) : ∀ a ∈ reconcile roster d, a.commits = 0 := by
  suffices hf : ∀ (d : List (String × String)) (st : RecState),
      (∀ a ∈ st.authors, a.commits = 0) →
      ∀ a ∈ (d.foldl recStep st).authors, a.commits = 0 by
    exact hf d (initState roster) h
  intro d2
  induction d2 with
  | nil => intro st hst; exact hst
  | cons p rest ih =>
    intro st hst
    rw [List.foldl_cons]
    exact ih (recStep st p) (commits_zero_recStep st p hst)

lemma get_of_list_eq {l l2 : List Author} (h : l = l2) (j : Nat) (hj : j < l.length) :
    ∃ hj2 : j < l2.length, l2.get ⟨j, hj2⟩ = l.get ⟨j, hj⟩ := by
  subst h
  exact ⟨hj, rfl⟩

/-! ## The claims -/

/-- C9: the Identity Reconciler is idempotent — reconciling the already
reconciled roster against the same discovered (email, name) pairs changes
nothing: every discovered email is already listed. -/
theorem claimC9 (roster : List Author) (d : List (String × String)) :
    reconcile (reconcile roster d) d = reconcile roster d := by
  have hL : ListedOk (d.foldl recStep (initState roster)) :=
    (foldRec_inv d (initState roster) (listedOk_init roster) (namesOk_init roster)).1
  have hkey : ∀ p ∈ d, (initState (reconcile roster d)).listed p.1 = true := by
    intro p hp
    have h1 := foldRec_key_listed d (initState roster) p hp
    have h2 : p.1 ∈ allEmails (reconcile roster d) := (hL p.1).mp h1
    exact (initListed_spec (reconcile roster d) p.1).mpr h2
  show (d.foldl recStep (initState (reconcile roster d))).authors = reconcile roster d
  rw [foldRec_skip_all d (initState (reconcile roster d)) hkey]
  rfl

/-- C10: the in-place remove-while-scanning filter loop of `main` equals
the pure filter recommended by the spec — same surviving elements, same
order, fields unchanged. -/
theorem claimC10 (minC : Nat) (pat : String) (l : List Author) :
    filterLoop minC pat l 0 = pureFilter minC pat l :=
  filterLoop_eq_pureFilter minC pat l

/-- C7: membership in the post-filter working set is exactly: the
contributor was in the counted roster, its commits reach the minimum, and
its name does not contain the exclusion pattern. -/
theorem claimC7 (minC : Nat) (pat : String) (l : List Author) (a : Author) :
    a ∈ filterLoop minC pat l 0 ↔
      a ∈ l ∧ minC ≤ a.commits ∧ goContains a.name pat = false := by
  rw [filterLoop_eq_pureFilter, pureFilter, List.mem_filter]
  constructor
  · rintro ⟨h1, h2⟩
    rw [keepPred, Bool.and_eq_true] at h2
    refine ⟨h1, by simpa using h2.1, by simpa using h2.2⟩
  · rintro ⟨h1, h2, h3⟩
    exact ⟨h1, by simp [keepPred, h2, h3]⟩

/-- C8: in name-sort mode every adjacent pair of the sorted sequence is
ordered by lowercased name. -/
theorem claimC8 (l : List Author) (i : Nat) (h : i + 1 < (sortByName l).length) :
    ((sortByName l).get ⟨i, Nat.lt_of_succ_lt h⟩).name.toLower ≤
      ((sortByName l).get ⟨i + 1, h⟩).name.toLower := by
  have hs : List.Sorted nameLe (sortByName l) :=
    List.sorted_insertionSort nameLe l
  exact hs.rel_get_of_lt (show (⟨i, Nat.lt_of_succ_lt h⟩ : Fin _) < ⟨i + 1, h⟩ from by
    simp [Fin.lt_def])

/-- The sort is a permutation, so it preserves length. -/
lemma length_sortByName (l : List Author) : (sortByName l).length = l.length :=
  (List.perm_insertionSort nameLe l).length_eq

/-- Witness for C8 at a concrete two-element list. -/
theorem claimC8_witness :
    0 + 1 < (sortByName [⟨"b", "", [], 0, some 0⟩, ⟨"A", "", [], 0, some 0⟩]).length ∧
    ((sortByName [⟨"b", "", [], 0, some 0⟩, ⟨"A", "", [], 0, some 0⟩]).get
        ⟨0, Nat.lt_of_succ_lt (by rw [length_sortByName]; decide)⟩).name.toLower ≤
      ((sortByName [⟨"b", "", [], 0, some 0⟩, ⟨"A", "", [], 0, some 0⟩]).get
        ⟨0 + 1, (by rw [length_sortByName]; decide)⟩).name.toLower :=
  ⟨by rw [length_sortByName]; decide,
    claimC8 [⟨"b", "", [], 0, some 0⟩, ⟨"A", "", [], 0, some 0⟩] 0
      (by rw [length_sortByName]; decide)⟩

/-- C5 fails as stated: when the first record bearing an email has an
empty author name, a later record's non-empty name overwrites it, because
the loop guard `names[email] == ""` also fires for a stored empty string.
Here the first record for email `e` carries name `""`, yet the discovered
name is `"Bob"`. -/
theorem claimC5_counterexample :
    List.lookup "e" (allAuthors [] [⟨"h1", "e", ""⟩, ⟨"h2", "e", "Bob"⟩]) = some "Bob" ∧
    (⟨"h1", "e", ""⟩ : Record).name = "" := by
  decide

/-- C5 amended: the name associated with a discovered email is the first
NON-EMPTY name among that email's non-excluded records, in encounter
order (and `""` when every such record has an empty name). -/
theorem claimC5_amended (exclude : List String) (history : List Record) (e : String) :
    List.lookup e (allAuthors exclude history) =
      if namesFor exclude history e = [] then none
      else some (headNonEmpty (namesFor exclude history e)) := by
  have h := allAuthors_lookup_fold exclude history [] e
  rw [allAuthors]
  rw [h]
  rfl

/-- C6 fails as stated: the nickname and email regexes of `authors.go`
match anywhere inside a field, not only when the field is fully enclosed.
The field `x(y)z` is not enclosed in parentheses, so by the claim it
should be appended to the name; the parser instead claims it as the
nickname `y` and leaves the name empty. -/
theorem claimC6_counterexample :
    (parseLine (fieldsOf "x(y)z")).nickname = "y" ∧
    (parseLine (fieldsOf "x(y)z")).name = "" := by
  decide

/-- C6 amended: with "enclosed in" weakened to "containing" a
parenthesized (resp. angle-bracketed) token, the per-line parse is
position-independent and classifies every field into exactly one role:
nickname capture (last wins), email capture (appended in order), or plain
name field (joined by single spaces in order). -/
theorem claimC6_amended (line : String) :
    parseLine (fieldsOf line) = parseLineSpec (fieldsOf line) := by
  rw [parseLine, parse_foldl (fieldsOf line) zeroAuthor, parseLineSpec]
  have hne : ∀ f ∈ (fieldsOf line).filter isPlainField, f ≠ "" := by
    intro f hf
    exact fieldsOf_ne_empty line f (List.mem_filter.mp hf).1
  simp [zeroAuthor, joinFrom_empty ((fieldsOf line).filter isPlainField) hne]

/-- C2 fails as stated: the Roster Parser accepts a roster in which the
same email is listed under two contributors, and reconciliation keeps
both copies (the `listed` set only prevents history-discovered
duplicates).  After parsing `A <e@x>` and `B <e@x>` and reconciling with
an empty history, `e@x` is held by two contributors. -/
theorem claimC2_counterexample :
    "e@x" ∈ allEmails (reconcile (getAuthors "A <e@x>\nB <e@x>") []) ∧
    (reconcile (getAuthors "A <e@x>\nB <e@x>") []).countP
      (fun a => a.emails.contains "e@x") = 2 := by
  decide

/-- C2 amended: provided the input roster lists every email at most once,
every email of the reconciled roster belongs to exactly one contributor
(and the reconciled email sequence is duplicate-free), for every history. -/
theorem claimC2_amended (roster : List Author) (d : List (String × String))
    (hnd : (allEmails roster).Nodup) :
    (allEmails (reconcile roster d)).Nodup ∧
    ∀ e, e ∈ allEmails (reconcile roster d) →
      (reconcile roster d).countP (fun a => a.emails.contains e) = 1 := by
  have h1 : (allEmails (reconcile roster d)).Nodup :=
    foldRec_nodup d (initState roster) (listedOk_init roster) (namesOk_init roster) hnd
  exact ⟨h1, fun e he => countP_one_of_nodup (reconcile roster d) e h1 he⟩

/-- Witness for C2 at a concrete roster and history. -/
theorem claimC2_witness :
    (allEmails [⟨"A", "", ["a@x"], 0, some 0⟩]).Nodup ∧
    ((allEmails (reconcile [⟨"A", "", ["a@x"], 0, some 0⟩] [("b@x", "B")])).Nodup ∧
      ∀ e, e ∈ allEmails (reconcile [⟨"A", "", ["a@x"], 0, some 0⟩] [("b@x", "B")]) →
        (reconcile [⟨"A", "", ["a@x"], 0, some 0⟩] [("b@x", "B")]).countP
          (fun a => a.emails.contains e) = 1) :=
  ⟨by decide, claimC2_amended [⟨"A", "", ["a@x"], 0, some 0⟩] [("b@x", "B")] (by decide)⟩

/-- C4 fails as stated: for a contributor with zero commits the code
computes `int(math.Log2(0))`, the integer conversion of `-Inf`, which the
Go specification leaves implementation-dependent — not a specific defined
finite sentinel.  In the embedding that absent value is `none`. -/
theorem claimC4_counterexample :
    (getContributions [⟨"A", "", ["e"], 0, some 0⟩] []).map Author.geekrank = [none] := by
  decide

/-- C4 amended: after counting, every contributor's geekrank is computed
as `geekrankOf commits`; for `commits ≥ 1` this is `floor (log2 commits)`
(characterized by the two power bounds), while for zero commits it is the
propagated conversion of `-Inf`, with no defined finite value. -/
theorem claimC4_amended (authors : List Author) (stream : List String) (i : Nat)
    (hi : i < (getContributions authors stream).length) :
    ((getContributions authors stream).get ⟨i, hi⟩).geekrank =
      geekrankOf ((getContributions authors stream).get ⟨i, hi⟩).commits ∧
    (1 ≤ ((getContributions authors stream).get ⟨i, hi⟩).commits →
      geekrankOf ((getContributions authors stream).get ⟨i, hi⟩).commits =
        some ((Nat.log2 ((getContributions authors stream).get ⟨i, hi⟩).commits : Nat) : Int) ∧
      2 ^ Nat.log2 ((getContributions authors stream).get ⟨i, hi⟩).commits ≤
        ((getContributions authors stream).get ⟨i, hi⟩).commits ∧
      ((getContributions authors stream).get ⟨i, hi⟩).commits <
        2 ^ (Nat.log2 ((getContributions authors stream).get ⟨i, hi⟩).commits + 1)) := by
  have hi0 : i < authors.length := by rw [length_getContributions] at hi; exact hi
  refine ⟨getContributions_geekrank authors stream i hi0 hi, ?_⟩
  intro hc
  have hne : ((getContributions authors stream).get ⟨i, hi⟩).commits ≠ 0 := by omega
  refine ⟨?_, Nat.log2_self_le hne, Nat.lt_log2_self⟩
  rw [geekrankOf, if_neg hne]

/-- Witness for C4 at a one-contributor roster with one commit. -/
theorem claimC4_witness :
    0 < (getContributions [⟨"A", "", ["e"], 0, some 0⟩] ["e"]).length ∧
    (((getContributions [⟨"A", "", ["e"], 0, some 0⟩] ["e"]).get ⟨0, (by decide)⟩).geekrank =
      geekrankOf (((getContributions [⟨"A", "", ["e"], 0, some 0⟩] ["e"]).get
        ⟨0, (by decide)⟩).commits) ∧
    (1 ≤ ((getContributions [⟨"A", "", ["e"], 0, some 0⟩] ["e"]).get
        ⟨0, (by decide)⟩).commits →
      geekrankOf (((getContributions [⟨"A", "", ["e"], 0, some 0⟩] ["e"]).get
          ⟨0, (by decide)⟩).commits) =
        some ((Nat.log2 (((getContributions [⟨"A", "", ["e"], 0, some 0⟩] ["e"]).get
          ⟨0, (by decide)⟩).commits) : Nat) : Int) ∧
      2 ^ Nat.log2 (((getContributions [⟨"A", "", ["e"], 0, some 0⟩] ["e"]).get
          ⟨0, (by decide)⟩).commits) ≤
        ((getContributions [⟨"A", "", ["e"], 0, some 0⟩] ["e"]).get
          ⟨0, (by decide)⟩).commits ∧
      ((getContributions [⟨"A", "", ["e"], 0, some 0⟩] ["e"]).get
          ⟨0, (by decide)⟩).commits <
        2 ^ (Nat.log2 (((getContributions [⟨"A", "", ["e"], 0, some 0⟩] ["e"]).get
          ⟨0, (by decide)⟩).commits) + 1))) :=
  ⟨by decide, claimC4_amended [⟨"A", "", ["e"], 0, some 0⟩] ["e"] 0 (by decide)⟩

/-- C1 fails as stated: `getContributions` counts the raw
`git log --pretty=format:%ae` stream, which is not filtered against the
Exclusion Set.  With history `[(h1, e, A), (h2, e, A)]` and `h2`
excluded, identity discovery skips `h2`, yet the counter still counts
both commits: the contributor ends with `commits = 2`, while only one
non-excluded commit bears its email. -/
theorem claimC1_counterexample :
    (countedAuthors [] ["h2"] [⟨"h1", "e", "A"⟩, ⟨"h2", "e", "A"⟩]).map Author.commits
      = [2] ∧
    ([(⟨"h1", "e", "A"⟩ : Record), ⟨"h2", "e", "A"⟩].filter
        (fun r => !(["h2"] : List String).contains r.hash
          && (["e"] : List String).contains r.email)).length = 1 := by
  decide

/-- C1 amended: a contributor's final `commits` equals the number of ALL
commits of the history — excluded ones included — whose author email
belongs to that contributor (counting applies no exclusion filtering). -/
theorem claimC1_amended (roster : List Author) (exclude : List String)
    (history : List Record)
    (hz : ∀ a ∈ roster, a.commits = 0) (hnd : (allEmails roster).Nodup)
    (i : Nat) (hi : i < (reconcile roster (allAuthors exclude history)).length) :
    ∃ hi2 : i < (countedAuthors roster exclude history).length,
      ((countedAuthors roster exclude history).get ⟨i, hi2⟩).commits =
        history.countP
          (fun r => ((reconcile roster (allAuthors exclude history)).get
            ⟨i, hi⟩).emails.contains r.email) := by
  have hndR : (allEmails (reconcile roster (allAuthors exclude history))).Nodup :=
    foldRec_nodup (allAuthors exclude history) (initState roster)
      (listedOk_init roster) (namesOk_init roster) hnd
  have hi2 : i < (countedAuthors roster exclude history).length := by
    rw [countedAuthors, length_getContributions]
    exact hi
  refine ⟨hi2, ?_⟩
  have key := getContributions_commits (reconcile roster (allAuthors exclude history))
    (emailStream history) i hi hi2
  have hzero : ((reconcile roster (allAuthors exclude history)).get ⟨i, hi⟩).commits = 0 :=
    commits_zero_reconcile roster (allAuthors exclude history) hz _
      (List.get_mem (reconcile roster (allAuthors exclude history)) i hi)
  have hcount : (emailStream history).countP
      (fun e => decide (buildEmailIdx (reconcile roster (allAuthors exclude history)) e
        = some i)) =
      history.countP
        (fun r => ((reconcile roster (allAuthors exclude history)).get
          ⟨i, hi⟩).emails.contains r.email) := by
    rw [emailStream, List.countP_map]
    refine List.countP_congr ?_
    intro r _
    show decide (buildEmailIdx (reconcile roster (allAuthors exclude history)) r.email
        = some i) = true ↔
      ((reconcile roster (allAuthors exclude history)).get ⟨i, hi⟩).emails.contains r.email
        = true
    rw [decide_eq_true_iff, List.contains_iff_exists_mem_beq]
    constructor
    · intro hsome
      obtain ⟨hj, hmm⟩ := buildEmailIdx_some hsome
      exact ⟨r.email, hmm, by simp⟩
    · rintro ⟨x, hx, hbeq⟩
      have hxe : r.email = x := by simpa using hbeq
      subst hxe
      exact buildEmailIdx_of_mem hi hndR hx
  rw [hzero, hcount] at key
  rw [Nat.zero_add] at key
  exact key

/-- Witness for C1 at a one-commit history and empty roster. -/
theorem claimC1_witness :
    0 < (reconcile [] (allAuthors [] [⟨"h", "e", "A"⟩])).length ∧
    ∃ hi2 : 0 < (countedAuthors [] [] [⟨"h", "e", "A"⟩]).length,
      ((countedAuthors [] [] [⟨"h", "e", "A"⟩]).get ⟨0, hi2⟩).commits =
        [(⟨"h", "e", "A"⟩ : Record)].countP
          (fun r => ((reconcile [] (allAuthors [] [⟨"h", "e", "A"⟩])).get
            ⟨0, (by decide)⟩).emails.contains r.email) :=
  ⟨by decide,
    claimC1_amended [] [] [⟨"h", "e", "A"⟩] (by simp) (by decide) 0 (by decide)⟩

/-- C3: a history-discovered email whose non-empty discovered name
exactly matches an existing roster contributor's name is appended to that
(original, pre-reconciliation) contributor, and no other contributor —
in particular no newly created one — ends up holding it. -/
theorem claimC3 (roster : List Author) (exclude : List String) (history : List Record)
    (e2 n : String) (hmem : (e2, n) ∈ allAuthors exclude history) (hn : n ≠ "")
    (hname : ∃ j, ∃ hj : j < roster.length, (roster.get ⟨j, hj⟩).name = n)
    (hnew : e2 ∉ allEmails roster) :
    ∃ i0, ∃ h0 : i0 < roster.length, (roster.get ⟨i0, h0⟩).name = n ∧
      ∃ hR : i0 < (reconcile roster (allAuthors exclude history)).length,
        ((reconcile roster (allAuthors exclude history)).get ⟨i0, hR⟩).name = n ∧
        e2 ∈ ((reconcile roster (allAuthors exclude history)).get ⟨i0, hR⟩).emails ∧
        ∀ j, ∀ hj : j < (reconcile roster (allAuthors exclude history)).length,
          j ≠ i0 →
            e2 ∉ ((reconcile roster (allAuthors exclude history)).get ⟨j, hj⟩).emails := by
  set d := allAuthors exclude history with hd
  obtain ⟨i0, hi0⟩ := initNamesFrom_present roster 0 (fun _ => none) n hname
  have hi0' : initNames roster n = some i0 := hi0
  obtain ⟨h0, h0name⟩ := namesOk_init roster n i0 hi0'
  obtain ⟨d1, d2, hsplit⟩ := List.append_of_mem hmem
  have hkeys : ((d1 ++ (e2, n) :: d2).map Prod.fst).Nodup := by
    rw [← hsplit]
    exact allAuthors_keys_nodup exclude history
  rw [List.map_append, List.map_cons] at hkeys
  obtain ⟨nd1, nd2, disj⟩ := List.nodup_append.mp hkeys
  have he2d1 : ∀ p ∈ d1, p.1 ≠ e2 := by
    intro p hp heq
    exact disj (List.mem_map.mpr ⟨p, hp, heq⟩) (by simp)
  have he2d2 : ∀ p ∈ d2, p.1 ≠ e2 := by
    intro p hp heq
    exact (List.nodup_cons.mp nd2).1 (List.mem_map.mpr ⟨p, hp, heq⟩)
  have hpre0 : PreInv e2 n i0 (initState roster) := by
    refine ⟨?_, hnew, hi0'⟩
    cases hb : initListed roster e2 with
    | false => exact hb
    | true => exact absurd ((initListed_spec roster e2).mp hb) hnew
  have hpre1 : PreInv e2 n i0 (d1.foldl recStep (initState roster)) :=
    preInv_fold d1 (initState roster) hn he2d1 hpre0
  obtain ⟨hL1, hN1⟩ :=
    foldRec_inv d1 (initState roster) (listedOk_init roster) (namesOk_init roster)
  obtain ⟨hlst, hnmem, hnames1⟩ := hpre1
  obtain ⟨hi0len, hi0name⟩ := hN1 n i0 hnames1
  have hstep : recStep (d1.foldl recStep (initState roster)) (e2, n) =
      { authors := appendEmailAt (d1.foldl recStep (initState roster)).authors i0 e2,
        listed := addListed (d1.foldl recStep (initState roster)).listed e2,
        names := (d1.foldl recStep (initState roster)).names } :=
    recStep_merge hlst hnames1 hn
  have hpost2 : PostInv e2 i0 (recStep (d1.foldl recStep (initState roster)) (e2, n)) := by
    rw [hstep]
    refine ⟨⟨by rw [length_appendEmailAt]; exact hi0len, ?_⟩, ?_⟩
    · rw [get_appendEmailAt (d1.foldl recStep (initState roster)).authors i0 e2 i0 hi0len]
      rw [if_pos rfl]
      exact List.mem_append_right _ (by simp)
    · intro j hj hne
      have hj0 : j < (d1.foldl recStep (initState roster)).authors.length := by
        rw [length_appendEmailAt] at hj
        exact hj
      rw [get_appendEmailAt (d1.foldl recStep (initState roster)).authors i0 e2 j hj0]
      rw [if_neg hne]
      intro hmm
      exact hnmem (mem_allEmails.mpr
        ⟨(d1.foldl recStep (initState roster)).authors.get ⟨j, hj0⟩,
          List.get_mem _ _ _, hmm⟩)
  have hpostF : PostInv e2 i0
      (d2.foldl recStep (recStep (d1.foldl recStep (initState roster)) (e2, n))) :=
    postInv_fold d2 _ he2d2 hpost2
  have hfold : reconcile roster d =
      (d2.foldl recStep (recStep (d1.foldl recStep (initState roster)) (e2, n))).authors := by
    rw [reconcile, hsplit, List.foldl_append, List.foldl_cons]
  obtain ⟨hRlen, hRname⟩ := foldRec_name_stable d (initState roster) i0 h0
  refine ⟨i0, h0, h0name, ?_⟩
  have hRlen2 : i0 < (reconcile roster d).length := hRlen
  refine ⟨hRlen2, ?_, ?_, ?_⟩
  · exact hRname.trans h0name
  · obtain ⟨⟨hx, hmem2⟩, _⟩ := hpostF
    obtain ⟨hj2, heq⟩ := get_of_list_eq hfold i0 hRlen2
    rw [← heq]
    exact hmem2
  · intro j hj hne
    obtain ⟨_, hall⟩ := hpostF
    obtain ⟨hj2, heq⟩ := get_of_list_eq hfold j hj
    rw [← heq]
    exact hall j hj2 hne

/-- Witness for C3: roster knows Bob with one email; history reveals a
second email under the exact name `Bob`. -/
theorem claimC3_witness :
    ∃ i0, ∃ h0 : i0 < ([⟨"Bob", "", ["b@x"], 0, some 0⟩] : List Author).length,
      (([⟨"Bob", "", ["b@x"], 0, some 0⟩] : List Author).get ⟨i0, h0⟩).name = "Bob" ∧
      ∃ hR : i0 < (reconcile [⟨"Bob", "", ["b@x"], 0, some 0⟩]
          (allAuthors [] [⟨"h1", "o@x", "Bob"⟩])).length,
        ((reconcile [⟨"Bob", "", ["b@x"], 0, some 0⟩]
            (allAuthors [] [⟨"h1", "o@x", "Bob"⟩])).get ⟨i0, hR⟩).name = "Bob" ∧
        "o@x" ∈ ((reconcile [⟨"Bob", "", ["b@x"], 0, some 0⟩]
            (allAuthors [] [⟨"h1", "o@x", "Bob"⟩])).get ⟨i0, hR⟩).emails ∧
        ∀ j, ∀ hj : j < (reconcile [⟨"Bob", "", ["b@x"], 0, some 0⟩]
            (allAuthors [] [⟨"h1", "o@x", "Bob"⟩])).length,
          j ≠ i0 →
            "o@x" ∉ ((reconcile [⟨"Bob", "", ["b@x"], 0, some 0⟩]
              (allAuthors [] [⟨"h1", "o@x", "Bob"⟩])).get ⟨j, hj⟩).emails :=
  claimC3 [⟨"Bob", "", ["b@x"], 0, some 0⟩] [] [⟨"h1", "o@x", "Bob"⟩] "o@x" "Bob"
    (by decide) (by decide) ⟨0, (by decide), (by decide)⟩ (by decide)

end GitContrib
